import Mathlib

/-!
Verification of the frida-agent-api build service (src/main.py).

The development shallowly embeds the source program:
* the bridge-import scanner `FRIDA_BRIDGE_RE` / `find_frida_bridges`
  (a backtracking matcher for the concrete regular expression
  writing Q for either quote character and NQ for the class of
  non-quote characters the pattern reads, in VERBOSE form,
  literal-import (?: backslash-s+ NQ+ backslash-s+ from backslash-s+ )?
  Q (frida- NQ+ -bridge) Q — scanned left to right without overlap, as
  `re.finditer` does),
* the word-boundary keyword search, `re.search` of the keyword between
  two backslash-b boundaries,
* `inject_missing_bridges`,
* the `/compile` request handler `compile_agent`, modelled as a pure
  function from a request and an environment (outcomes of the external
  commands and of the filesystem) to a result plus an ordered trace of
  the effects it performs.

Text is modelled as `List Char`.  Character classes follow the ASCII
behaviour of the Python pattern classes.
-/

/-- ASCII behaviour of the Python regex class `\s`. -/
def isSpaceCh (c : Char) : Bool :=
  c == ' ' || c == '\t' || c == '\n' || c == '\r' || c == '\x0b' || c == '\x0c'

/-- The class Q: either quote character accepted by the pattern. -/
def isQuoteCh (c : Char) : Bool :=
  c == '"' || c == '\''

/-- ASCII behaviour of the Python regex class `\w` (used by `\b`). -/
def isWordCh (c : Char) : Bool :=
  c.isAlphanum || c == '_'

/-- Result of a regex match attempt: the captured group and the input
remaining after the match. -/
abbrev MRes := List Char × List Char

/-- Match a literal character sequence at the head of the input. -/
def stripLit : List Char → List Char → Option (List Char)
  | [], s => some s
  | _ :: _, [] => none
  | l :: ls, c :: cs => if c == l then stripLit ls cs else none

/-- Greedy continuation loop for a one-or-more character class: called
after at least one class character has been consumed, it prefers to
consume further class characters and backtracks into the continuation
`k`, longest match first — the behaviour of a greedy `+` in the Python
engine. -/
def plusGo (p : Char → Bool) (k : List Char → Option MRes) : List Char → Option MRes
  | [] => k []
  | c :: cs =>
    if p c then
      match plusGo p k cs with
      | some r => some r
      | none => k (c :: cs)
    else k (c :: cs)

/-- Greedy one-or-more character class (backslash-s+ or NQ+): consumes
at least one character satisfying `p`, then behaves like `plusGo`. -/
def plusBT (p : Char → Bool) (k : List Char → Option MRes) : List Char → Option MRes
  | [] => none
  | c :: cs => if p c then plusGo p k cs else none

/-- Capturing variant of `plusGo`: also passes the consumed characters
to the continuation (used for the capture group). -/
def plusGoCap (p : Char → Bool) (k : List Char → List Char → Option MRes)
    (acc : List Char) : List Char → Option MRes
  | [] => k acc.reverse []
  | c :: cs =>
    if p c then
      match plusGoCap p k (c :: acc) cs with
      | some r => some r
      | none => k acc.reverse (c :: cs)
    else k acc.reverse (c :: cs)

/-- Capturing variant of `plusBT`. -/
def plusBTCap (p : Char → Bool) (k : List Char → List Char → Option MRes) :
    List Char → Option MRes
  | [] => none
  | c :: cs => if p c then plusGoCap p k [c] cs else none

/-- The capture group body, frida- then NQ+ then -bridge, followed by
a closing quote; the input starts just after the opening quote. -/
def matchGroupBody (s : List Char) : Option MRes :=
  match stripLit "frida-".toList s with
  | none => none
  | some s1 =>
    plusBTCap (fun c => !(isQuoteCh c)) (fun mid s2 =>
      match stripLit "-bridge".toList s2 with
      | none => none
      | some s3 =>
        match s3 with
        | [] => none
        | c :: s4 =>
          if isQuoteCh c then
            some ("frida-".toList ++ mid ++ "-bridge".toList, s4)
          else none) s1

/-- Q (frida- NQ+ -bridge) Q. -/
def matchQuoted (s : List Char) : Option MRes :=
  match s with
  | [] => none
  | c :: cs => if isQuoteCh c then matchGroupBody cs else none

/-- The optional clause, backslash-s+ NQ+ backslash-s+ from
backslash-s+, followed by the quoted group. -/
def matchFromClause (s : List Char) : Option MRes :=
  plusBT isSpaceCh (fun s1 =>
    plusBT (fun c => !(isQuoteCh c)) (fun s2 =>
      plusBT isSpaceCh (fun s3 =>
        match stripLit "from".toList s3 with
        | none => none
        | some s4 => plusBT isSpaceCh (fun s5 => matchQuoted s5) s4) s2) s1) s

/-- One attempt of `FRIDA_BRIDGE_RE` anchored at the head of the input:
the literal `import`, then (preferring presence, as a greedy `(?:...)?`
does) the optional from-clause, then the quoted capture group. -/
def matchBridgeAt (s : List Char) : Option MRes :=
  match stripLit "import".toList s with
  | none => none
  | some s1 =>
    match matchFromClause s1 with
    | some r => some r
    | none => matchQuoted s1


/-- Fuel-driven left-to-right non-overlapping scan, the model of
`FRIDA_BRIDGE_RE.finditer`: at each position try a match; on success
record the captured group and resume after the match, otherwise advance
one character.  The fuel (one unit per position examined) makes the
recursion structural; `find_frida_bridges` supplies enough fuel. -/
def scanAux : Nat → List Char → List (List Char)
  | _, [] => []
  | 0, _ :: _ => []
  | n + 1, c :: cs =>
    match matchBridgeAt (c :: cs) with
    | some (g, rest) => g :: scanAux n rest
    | none => scanAux n cs

/-- `find_frida_bridges` from src/main.py: the captured bridge module
names of all matches of `FRIDA_BRIDGE_RE` in the source (Python returns
them as a set; the list below is read up to membership, and duplicates
are what the text itself duplicates). -/
def find_frida_bridges (s : List Char) : List (List Char) :=
  scanAux s.length s

/-- `w.isPrefixOf s` together with a right word boundary after the
occurrence: models matching `\bW\b` at this exact position, for a
keyword `W` consisting of word characters. -/
def wordHit (w s : List Char) : Bool :=
  w.isPrefixOf s &&
    (match s.drop w.length with
     | [] => true
     | c :: _ => !(isWordCh c))

/-- Walk the text carrying whether the previous character was a word
character (the left part of `\b`). -/
def wordOccursAux (w : List Char) : Bool → List Char → Bool
  | _, [] => false
  | prev, c :: cs => (!prev && wordHit w (c :: cs)) || wordOccursAux w (isWordCh c) cs

/-- Whether `re.search` finds the keyword between two backslash-b
boundaries somewhere in the source, for a keyword made of word
characters. -/
def wordOccurs (w s : List Char) : Bool :=
  wordOccursAux w false s

/-- One entry of `BRIDGE_MAPPINGS`: keyword, package name, and the
canonical import statement. -/
structure Bridge where
  kw : List Char
  pkg : List Char
  stmt : List Char
deriving DecidableEq

def javaBridge : Bridge :=
  ⟨"Java".toList, "frida-java-bridge".toList,
    "import Java from \"frida-java-bridge\";".toList⟩

def objcBridge : Bridge :=
  ⟨"ObjC".toList, "frida-objc-bridge".toList,
    "import ObjC from \"frida-objc-bridge\";".toList⟩

def swiftBridge : Bridge :=
  ⟨"Swift".toList, "frida-swift-bridge".toList,
    "import Swift from \"frida-swift-bridge\";".toList⟩

/-- `BRIDGE_MAPPINGS`, in the fixed (insertion) iteration order of the
Python dict: Java, ObjC, Swift. -/
def BRIDGE_MAPPINGS : List Bridge := [javaBridge, objcBridge, swiftBridge]

/-- Membership test used for `pkg_name not in existing_imports`. -/
def memB (l : List (List Char)) (x : List Char) : Bool :=
  l.any (fun y => y == x)

/-- The Python newline join of a list of lines. -/
def joinNL : List (List Char) → List Char
  | [] => []
  | [x] => x
  | x :: y :: ys => x ++ '\n' :: joinNL (y :: ys)

/-- The bridges whose import statement `inject_missing_bridges` decides
to inject: keyword used as a standalone word, package not already
imported, in `BRIDGE_MAPPINGS` order. -/
def injBridges (source : List Char) : List Bridge :=
  BRIDGE_MAPPINGS.filter
    (fun b => !(memB (find_frida_bridges source) b.pkg) && wordOccurs b.kw source)

/-- `inject_missing_bridges` from src/main.py: prepend the missing
statements, one per line, the newline join plus a trailing newline,
followed by the unchanged source; if nothing is missing return the
source unchanged. -/
def inject_missing_bridges (source : List Char) : List Char :=
  let injections := (injBridges source).map Bridge.stmt
  if injections.isEmpty then source
  else joinNL injections ++ '\n' :: source

theorem stripLit_some_length :
    ∀ (l s t : List Char), stripLit l s = some t → t.length + l.length = s.length := by
  intro l
  induction l with
  | nil =>
    intro s t h
    simp [stripLit] at h
    subst h
    simp
  | cons c cs ih =>
    intro s t h
    cases s with
    | nil => simp [stripLit] at h
    | cons d ds =>
      simp only [stripLit] at h
      split at h
      · have := ih ds t h
        simp only [List.length_cons]
        omega
      · exact absurd h (by simp)

theorem plusGo_some_imp (p : Char → Bool) (k : List Char → Option MRes) (Q : MRes → Prop) :
    ∀ (s : List Char),
      (∀ t, t.length ≤ s.length → ∀ r, k t = some r → Q r) →
      ∀ r, plusGo p k s = some r → Q r := by
  intro s
  induction s with
  | nil =>
    intro hk r h
    simp only [plusGo] at h
    exact hk [] (by simp) r h
  | cons c cs ih =>
    intro hk r h
    simp only [plusGo] at h
    split at h
    · cases hgo : plusGo p k cs with
      | some r' =>
        rw [hgo] at h
        simp only [Option.some.injEq] at h
        subst h
        exact ih (fun t ht r hr => hk t (le_trans ht (by simp)) r hr) r' hgo
      | none =>
        rw [hgo] at h
        exact hk (c :: cs) le_rfl r h
    · exact hk (c :: cs) le_rfl r h

theorem plusBT_some_imp (p : Char → Bool) (k : List Char → Option MRes) (Q : MRes → Prop) :
    ∀ (s : List Char),
      (∀ t, t.length < s.length → ∀ r, k t = some r → Q r) →
      ∀ r, plusBT p k s = some r → Q r := by
  intro s hk r h
  cases s with
  | nil => simp [plusBT] at h
  | cons c cs =>
    simp only [plusBT] at h
    split at h
    · exact plusGo_some_imp p k Q cs
        (fun t ht r hr => hk t (lt_of_le_of_lt ht (by simp)) r hr) r h
    · exact absurd h (by simp)

theorem plusGoCap_some_imp (p : Char → Bool) (k : List Char → List Char → Option MRes)
    (Q : MRes → Prop) :
    ∀ (s : List Char) (acc : List Char),
      (∀ m t, t.length ≤ s.length → ∀ r, k m t = some r → Q r) →
      ∀ r, plusGoCap p k acc s = some r → Q r := by
  intro s
  induction s with
  | nil =>
    intro acc hk r h
    simp only [plusGoCap] at h
    exact hk acc.reverse [] (by simp) r h
  | cons c cs ih =>
    intro acc hk r h
    simp only [plusGoCap] at h
    split at h
    · cases hgo : plusGoCap p k (c :: acc) cs with
      | some r' =>
        rw [hgo] at h
        simp only [Option.some.injEq] at h
        subst h
        exact ih (c :: acc) (fun m t ht r hr => hk m t (le_trans ht (by simp)) r hr) r' hgo
      | none =>
        rw [hgo] at h
        exact hk acc.reverse (c :: cs) le_rfl r h
    · exact hk acc.reverse (c :: cs) le_rfl r h

theorem plusBTCap_some_imp (p : Char → Bool) (k : List Char → List Char → Option MRes)
    (Q : MRes → Prop) :
    ∀ (s : List Char),
      (∀ m t, t.length < s.length → ∀ r, k m t = some r → Q r) →
      ∀ r, plusBTCap p k s = some r → Q r := by
  intro s hk r h
  cases s with
  | nil => simp [plusBTCap] at h
  | cons c cs =>
    simp only [plusBTCap] at h
    split at h
    · exact plusGoCap_some_imp p k Q cs [c]
        (fun m t ht r hr => hk m t (lt_of_le_of_lt ht (by simp)) r hr) r h
    · exact absurd h (by simp)

theorem matchGroupBody_lt (s : List Char) (r : MRes) (h : matchGroupBody s = some r) :
    r.2.length < s.length := by
  simp only [matchGroupBody] at h
  cases hst : stripLit "frida-".toList s with
  | none => rw [hst] at h; exact absurd h (by simp)
  | some s1 =>
    rw [hst] at h
    have hs1 := stripLit_some_length _ _ _ hst
    refine plusBTCap_some_imp _ _ (fun r => r.2.length < s.length) s1 ?_ r h
    intro m t ht r' hk
    cases hst2 : stripLit "-bridge".toList t with
    | none => rw [hst2] at hk; exact absurd hk (by simp)
    | some s3 =>
      rw [hst2] at hk
      have hs3 := stripLit_some_length _ _ _ hst2
      cases s3 with
      | nil => exact absurd hk (by simp)
      | cons c s4 =>
        simp only at hk
        split at hk
        · simp only [Option.some.injEq] at hk
          subst hk
          simp only [List.length_cons] at hs3
          simp only [List.length] at hs1 ⊢
          omega
        · exact absurd hk (by simp)

theorem matchQuoted_lt (s : List Char) (r : MRes) (h : matchQuoted s = some r) :
    r.2.length < s.length := by
  cases s with
  | nil => simp [matchQuoted] at h
  | cons c cs =>
    simp only [matchQuoted] at h
    split at h
    · exact lt_trans (matchGroupBody_lt cs r h) (by simp)
    · exact absurd h (by simp)

theorem matchFromClause_lt (s : List Char) (r : MRes) (h : matchFromClause s = some r) :
    r.2.length < s.length := by
  simp only [matchFromClause] at h
  refine plusBT_some_imp _ _ (fun r => r.2.length < s.length) s ?_ r h
  intro s1 hs1 r1 h1
  refine plusBT_some_imp _ _ (fun r => r.2.length < s.length) s1 ?_ r1 h1
  intro s2 hs2 r2 h2
  refine plusBT_some_imp _ _ (fun r => r.2.length < s.length) s2 ?_ r2 h2
  intro s3 hs3 r3 h3
  cases hst : stripLit "from".toList s3 with
  | none => rw [hst] at h3; exact absurd h3 (by simp)
  | some s4 =>
    rw [hst] at h3
    have hs4 := stripLit_some_length _ _ _ hst
    refine plusBT_some_imp _ _ (fun r => r.2.length < s.length) s4 ?_ r3 h3
    intro s5 hs5 r4 h4
    have := matchQuoted_lt s5 r4 h4
    omega

theorem matchBridgeAt_lt (s : List Char) (r : MRes) (h : matchBridgeAt s = some r) :
    r.2.length < s.length := by
  simp only [matchBridgeAt] at h
  cases hst : stripLit "import".toList s with
  | none => rw [hst] at h; exact absurd h (by simp)
  | some s1 =>
    rw [hst] at h
    dsimp only at h
    have hs1 := stripLit_some_length _ _ _ hst
    cases hfc : matchFromClause s1 with
    | some r' =>
      rw [hfc] at h
      dsimp only at h
      simp only [Option.some.injEq] at h
      subst h
      have := matchFromClause_lt s1 r' hfc
      omega
    | none =>
      rw [hfc] at h
      dsimp only at h
      have := matchQuoted_lt s1 r h
      omega

/-- The fuel of `scanAux` is irrelevant once it covers the input length. -/
theorem scanAux_congr :
    ∀ (n : Nat) (s : List Char) (m : Nat), s.length ≤ n → s.length ≤ m →
      scanAux n s = scanAux m s := by
  intro n
  induction n with
  | zero =>
    intro s m hn _
    have : s = [] := by
      cases s with
      | nil => rfl
      | cons c cs => simp at hn
    subst this
    cases m <;> simp [scanAux]
  | succ n ih =>
    intro s m hn hm
    cases s with
    | nil => cases m <;> simp [scanAux]
    | cons c cs =>
      cases m with
      | zero => simp at hm
      | succ m' =>
        simp only [scanAux]
        cases hma : matchBridgeAt (c :: cs) with
        | some r =>
          cases r with
          | mk g rest =>
            have hlt := matchBridgeAt_lt _ _ hma
            simp only [List.length_cons] at hlt hn hm
            dsimp only
            rw [ih rest m' (by omega) (by omega)]
        | none =>
          simp only [List.length_cons] at hn hm
          dsimp only
          rw [ih cs m' (by omega) (by omega)]

/-- Enough fuel computes `find_frida_bridges`. -/
theorem scanAux_ge (s : List Char) (n : Nat) (h : s.length ≤ n) :
    scanAux n s = find_frida_bridges s :=
  scanAux_congr n s s.length h le_rfl

theorem matchBridgeAt_semi (t : List Char) : matchBridgeAt (';' :: t) = none := rfl

theorem matchBridgeAt_nl (t : List Char) : matchBridgeAt ('\n' :: t) = none := rfl

/-- A match attempt at the head of the canonical Java import statement
succeeds with the group frida-java-bridge and stops at the semicolon,
whatever follows the statement. -/
theorem matchBridgeAt_java (t : List Char) :
    matchBridgeAt (javaBridge.stmt ++ t) = some (javaBridge.pkg, ';' :: t) := rfl

theorem matchBridgeAt_objc (t : List Char) :
    matchBridgeAt (objcBridge.stmt ++ t) = some (objcBridge.pkg, ';' :: t) := rfl

theorem matchBridgeAt_swift (t : List Char) :
    matchBridgeAt (swiftBridge.stmt ++ t) = some (swiftBridge.pkg, ';' :: t) := rfl

/-- Scanning a canonical Java import line consumes the statement and
its newline (three scan steps) and yields its package name. -/
theorem scanAux_stmtJava (n : Nat) (t : List Char) :
    scanAux (n + 38) (javaBridge.stmt ++ '\n' :: t) =
      javaBridge.pkg :: scanAux (n + 35) t := rfl

theorem scanAux_stmtObjc (n : Nat) (t : List Char) :
    scanAux (n + 38) (objcBridge.stmt ++ '\n' :: t) =
      objcBridge.pkg :: scanAux (n + 35) t := rfl

theorem scanAux_stmtSwift (n : Nat) (t : List Char) :
    scanAux (n + 40) (swiftBridge.stmt ++ '\n' :: t) =
      swiftBridge.pkg :: scanAux (n + 37) t := rfl

/-- The word Java occurs (with boundaries) inside the canonical Java
statement, whatever follows it. -/
theorem wordJava_stmtJava (t : List Char) :
    wordOccursAux javaBridge.kw false (javaBridge.stmt ++ '\n' :: t) = true := rfl

theorem wordObjc_stmtObjc (t : List Char) :
    wordOccursAux objcBridge.kw false (objcBridge.stmt ++ '\n' :: t) = true := rfl

theorem wordSwift_stmtSwift (t : List Char) :
    wordOccursAux swiftBridge.kw false (swiftBridge.stmt ++ '\n' :: t) = true := rfl

/-- Walking across a foreign canonical statement does not produce a
Java hit and resumes in the non-word state. -/
theorem wordJava_stmtObjc (t : List Char) :
    wordOccursAux javaBridge.kw false (objcBridge.stmt ++ '\n' :: t) =
      wordOccursAux javaBridge.kw false t := rfl

theorem wordJava_stmtSwift (t : List Char) :
    wordOccursAux javaBridge.kw false (swiftBridge.stmt ++ '\n' :: t) =
      wordOccursAux javaBridge.kw false t := rfl

theorem wordObjc_stmtJava (t : List Char) :
    wordOccursAux objcBridge.kw false (javaBridge.stmt ++ '\n' :: t) =
      wordOccursAux objcBridge.kw false t := rfl

theorem wordObjc_stmtSwift (t : List Char) :
    wordOccursAux objcBridge.kw false (swiftBridge.stmt ++ '\n' :: t) =
      wordOccursAux objcBridge.kw false t := rfl

theorem wordSwift_stmtJava (t : List Char) :
    wordOccursAux swiftBridge.kw false (javaBridge.stmt ++ '\n' :: t) =
      wordOccursAux swiftBridge.kw false t := rfl

theorem wordSwift_stmtObjc (t : List Char) :
    wordOccursAux swiftBridge.kw false (objcBridge.stmt ++ '\n' :: t) =
      wordOccursAux swiftBridge.kw false t := rfl

/-- The shape of the injected block: each statement followed by a
newline.  For a nonempty list this equals the newline join plus a
trailing newline. -/
def concatBlk : List Bridge → List Char
  | [] => []
  | b :: bs => b.stmt ++ '\n' :: concatBlk bs

theorem joinNL_block (bs : List Bridge) (hne : bs ≠ []) (src : List Char) :
    joinNL (bs.map Bridge.stmt) ++ '\n' :: src = concatBlk bs ++ src := by
  induction bs with
  | nil => exact absurd rfl hne
  | cons b bs ih =>
    cases bs with
    | nil => simp [joinNL, concatBlk]
    | cons b2 bs2 =>
      have ih2 := ih (by simp)
      calc (b.stmt ++ '\n' :: joinNL ((b2 :: bs2).map Bridge.stmt)) ++ '\n' :: src
          = b.stmt ++ '\n' :: (joinNL ((b2 :: bs2).map Bridge.stmt) ++ '\n' :: src) := by
            simp
        _ = b.stmt ++ '\n' :: (concatBlk (b2 :: bs2) ++ src) := by rw [ih2]
        _ = concatBlk (b :: b2 :: bs2) ++ src := by simp [concatBlk]

theorem mem_mappings_cases (b : Bridge) (hb : b ∈ BRIDGE_MAPPINGS) :
    b = javaBridge ∨ b = objcBridge ∨ b = swiftBridge := by
  simpa [BRIDGE_MAPPINGS] using hb

/-- Scanning the injected block followed by arbitrary text yields the
injected package names followed by the scan of the text. -/
theorem find_concatBlk (bs : List Bridge) (src : List Char)
    (hsub : ∀ b ∈ bs, b ∈ BRIDGE_MAPPINGS) :
    find_frida_bridges (concatBlk bs ++ src) =
      bs.map Bridge.pkg ++ find_frida_bridges src := by
  revert hsub
  induction bs with
  | nil =>
    intro hsub
    simp [concatBlk]
  | cons b bs ih =>
    intro hsub
    have hb3 := mem_mappings_cases b (hsub b (by simp))
    have ih2 := ih (fun b' h => hsub b' (List.mem_cons_of_mem _ h))
    have hshape : concatBlk (b :: bs) ++ src =
        b.stmt ++ '\n' :: (concatBlk bs ++ src) := by simp [concatBlk]
    rcases hb3 with hbe | hbe | hbe <;> subst hbe
    · have hlen : (javaBridge.stmt ++ '\n' :: (concatBlk bs ++ src)).length =
          (concatBlk bs ++ src).length + 38 := by
        simp only [List.length_append, List.length_cons,
          show javaBridge.stmt.length = 37 from rfl]
        omega
      unfold find_frida_bridges
      rw [hshape, hlen, scanAux_stmtJava,
        scanAux_ge (concatBlk bs ++ src) _ (by omega)]
      rw [ih2]
      simp [find_frida_bridges]
    · have hlen : (objcBridge.stmt ++ '\n' :: (concatBlk bs ++ src)).length =
          (concatBlk bs ++ src).length + 38 := by
        simp only [List.length_append, List.length_cons,
          show objcBridge.stmt.length = 37 from rfl]
        omega
      unfold find_frida_bridges
      rw [hshape, hlen, scanAux_stmtObjc,
        scanAux_ge (concatBlk bs ++ src) _ (by omega)]
      rw [ih2]
      simp [find_frida_bridges]
    · have hlen : (swiftBridge.stmt ++ '\n' :: (concatBlk bs ++ src)).length =
          (concatBlk bs ++ src).length + 40 := by
        simp only [List.length_append, List.length_cons,
          show swiftBridge.stmt.length = 39 from rfl]
        omega
      unfold find_frida_bridges
      rw [hshape, hlen, scanAux_stmtSwift,
        scanAux_ge (concatBlk bs ++ src) _ (by omega)]
      rw [ih2]
      simp [find_frida_bridges]

theorem word_step (kw : List Char) (b : Bridge)
    (hkw : kw = javaBridge.kw ∨ kw = objcBridge.kw ∨ kw = swiftBridge.kw)
    (hb : b = javaBridge ∨ b = objcBridge ∨ b = swiftBridge) (t : List Char) :
    wordOccursAux kw false (b.stmt ++ '\n' :: t) =
      ((b.kw == kw) || wordOccursAux kw false t) := by
  rcases hb with h | h | h <;> rcases hkw with h2 | h2 | h2 <;> subst h <;> subst h2
  · rw [wordJava_stmtJava]; simp
  · rw [wordObjc_stmtJava]; simp [show (javaBridge.kw == objcBridge.kw) = false from rfl]
  · rw [wordSwift_stmtJava]; simp [show (javaBridge.kw == swiftBridge.kw) = false from rfl]
  · rw [wordJava_stmtObjc]; simp [show (objcBridge.kw == javaBridge.kw) = false from rfl]
  · rw [wordObjc_stmtObjc]; simp
  · rw [wordSwift_stmtObjc]; simp [show (objcBridge.kw == swiftBridge.kw) = false from rfl]
  · rw [wordJava_stmtSwift]; simp [show (swiftBridge.kw == javaBridge.kw) = false from rfl]
  · rw [wordObjc_stmtSwift]; simp [show (swiftBridge.kw == objcBridge.kw) = false from rfl]
  · rw [wordSwift_stmtSwift]; simp

/-- Keyword occurrence after prepending the injected block: the keyword
occurs iff one of the injected statements is its own, or it occurred in
the original text. -/
theorem wordOccurs_concatBlk (kw : List Char)
    (hkw : kw = javaBridge.kw ∨ kw = objcBridge.kw ∨ kw = swiftBridge.kw)
    (bs : List Bridge) (src : List Char)
    (hsub : ∀ b ∈ bs, b ∈ BRIDGE_MAPPINGS) :
    wordOccurs kw (concatBlk bs ++ src) =
      ((bs.any (fun b => b.kw == kw)) || wordOccurs kw src) := by
  revert hsub
  induction bs with
  | nil =>
    intro hsub
    simp [concatBlk]
  | cons b bs ih =>
    intro hsub
    have hb3 := mem_mappings_cases b (hsub b (by simp))
    have ih2 := ih (fun b' h => hsub b' (List.mem_cons_of_mem _ h))
    have hshape : concatBlk (b :: bs) ++ src =
        b.stmt ++ '\n' :: (concatBlk bs ++ src) := by simp [concatBlk]
    show wordOccursAux kw false (concatBlk (b :: bs) ++ src) = _
    rw [hshape, word_step kw b hkw hb3]
    rw [show wordOccursAux kw false (concatBlk bs ++ src) =
        wordOccurs kw (concatBlk bs ++ src) from rfl, ih2]
    simp [Bool.or_assoc]

theorem memB_iff (l : List (List Char)) (x : List Char) : memB l x = true ↔ x ∈ l := by
  simp [memB, List.any_eq_true, beq_iff_eq]

theorem inject_of_nil (src : List Char) (h : injBridges src = []) :
    inject_missing_bridges src = src := by
  simp [inject_missing_bridges, h]

theorem inject_of_ne (src : List Char) (h : injBridges src ≠ []) :
    inject_missing_bridges src = concatBlk (injBridges src) ++ src := by
  have hfalse : ((injBridges src).map Bridge.stmt).isEmpty = false := by
    cases hbs : injBridges src with
    | nil => exact absurd hbs h
    | cons a l => simp
  simp only [inject_missing_bridges, hfalse, Bool.false_eq_true, if_false]
  exact joinNL_block _ h src

theorem mappings_pkg_inj :
    ∀ b ∈ BRIDGE_MAPPINGS, ∀ b' ∈ BRIDGE_MAPPINGS, b'.pkg = b.pkg → b' = b := by decide

theorem mappings_kw_inj :
    ∀ b ∈ BRIDGE_MAPPINGS, ∀ b' ∈ BRIDGE_MAPPINGS, b'.kw = b.kw → b' = b := by decide

theorem kw_cases (b : Bridge) (hb : b ∈ BRIDGE_MAPPINGS) :
    b.kw = javaBridge.kw ∨ b.kw = objcBridge.kw ∨ b.kw = swiftBridge.kw := by
  rcases mem_mappings_cases b hb with h | h | h <;> subst h <;> simp

/-- On the output of a first injector pass, the injection condition of
every bridge evaluates to false: injected packages are now imported,
and bridges skipped on the first pass are skipped again. -/
theorem second_pass_cond (src : List Char) (b : Bridge)
    (hb : b ∈ BRIDGE_MAPPINGS) :
    (!(memB (find_frida_bridges (concatBlk (injBridges src) ++ src)) b.pkg) &&
      wordOccurs b.kw (concatBlk (injBridges src) ++ src)) = false := by
  have hsub : ∀ b' ∈ injBridges src, b' ∈ BRIDGE_MAPPINGS :=
    fun b' h => List.mem_of_mem_filter h
  have hfind := find_concatBlk (injBridges src) src hsub
  by_cases hmem : b ∈ injBridges src
  · have hin : memB (find_frida_bridges (concatBlk (injBridges src) ++ src)) b.pkg = true := by
      rw [memB_iff, hfind]
      exact List.mem_append_left _ (List.mem_map_of_mem _ hmem)
    simp [hin]
  · cases hm : memB (find_frida_bridges src) b.pkg with
    | true =>
      have hin : memB (find_frida_bridges (concatBlk (injBridges src) ++ src)) b.pkg = true := by
        rw [memB_iff, hfind]
        exact List.mem_append_right _ ((memB_iff _ _).mp hm)
      simp [hin]
    | false =>
      have hw : wordOccurs b.kw src = false := by
        cases hw : wordOccurs b.kw src with
        | false => rfl
        | true =>
          exact absurd (List.mem_filter.mpr ⟨hb, by simp [hm, hw]⟩) hmem
      have hany : (injBridges src).any (fun b' => b'.kw == b.kw) = false := by
        rw [List.any_eq_false]
        intro b' hb'
        simp only [beq_iff_eq]
        intro hkw
        exact hmem (mappings_kw_inj b hb b' (hsub b' hb') hkw ▸ hb')
      rw [wordOccurs_concatBlk b.kw (kw_cases b hb) (injBridges src) src hsub, hany, hw]
      simp

/-- The filter defining the injection list is empty when every
condition evaluates to false. -/
theorem injBridges_eq_nil (X : List Char)
    (hJ : (!(memB (find_frida_bridges X) javaBridge.pkg) &&
      wordOccurs javaBridge.kw X) = false)
    (hO : (!(memB (find_frida_bridges X) objcBridge.pkg) &&
      wordOccurs objcBridge.kw X) = false)
    (hS : (!(memB (find_frida_bridges X) swiftBridge.pkg) &&
      wordOccurs swiftBridge.kw X) = false) :
    injBridges X = [] := by
  simp only [injBridges, BRIDGE_MAPPINGS, List.filter_cons, hJ, hO, hS]
  simp

/-- C2: the Import Injector is idempotent.  Every statement it prepends
is recognised by the second-pass import scan, no keyword the first
pass ignored is introduced by the block, and already-imported modules
stay imported; hence the second pass injects nothing. -/
theorem C2_inject_idempotent (src : List Char) :
    inject_missing_bridges (inject_missing_bridges src) = inject_missing_bridges src := by
  by_cases hne : injBridges src = []
  · rw [inject_of_nil src hne]
    exact inject_of_nil src hne
  · rw [inject_of_ne src hne]
    have hJ := second_pass_cond src javaBridge (by decide)
    have hO := second_pass_cond src objcBridge (by decide)
    have hS := second_pass_cond src swiftBridge (by decide)
    exact inject_of_nil _ (injBridges_eq_nil _ hJ hO hS)

/-- C1: when each of the three capability keywords occurs as a
standalone word and none of the three bridge modules is imported,
`inject_missing_bridges` prepends exactly the three canonical
statements, in the `BRIDGE_MAPPINGS` iteration order Java, ObjC,
Swift, one per line, followed by a single newline and then the
original text unmodified. -/
theorem C1_inject_all_missing (src : List Char)
    (hwJ : wordOccurs javaBridge.kw src = true)
    (hwO : wordOccurs objcBridge.kw src = true)
    (hwS : wordOccurs swiftBridge.kw src = true)
    (hiJ : memB (find_frida_bridges src) javaBridge.pkg = false)
    (hiO : memB (find_frida_bridges src) objcBridge.pkg = false)
    (hiS : memB (find_frida_bridges src) swiftBridge.pkg = false) :
    inject_missing_bridges src =
      javaBridge.stmt ++ '\n' ::
        (objcBridge.stmt ++ '\n' :: (swiftBridge.stmt ++ '\n' :: src)) := by
  have hbs : injBridges src = BRIDGE_MAPPINGS := by
    simp only [injBridges, BRIDGE_MAPPINGS, List.filter_cons, hwJ, hwO, hwS,
      hiJ, hiO, hiS]
    simp
  have hne : injBridges src ≠ [] := by rw [hbs]; simp [BRIDGE_MAPPINGS]
  rw [inject_of_ne src hne, hbs]
  simp [BRIDGE_MAPPINGS, concatBlk]

theorem C1_witness :
    inject_missing_bridges "Java ObjC Swift x".toList =
      javaBridge.stmt ++ '\n' ::
        (objcBridge.stmt ++ '\n' ::
          (swiftBridge.stmt ++ '\n' :: "Java ObjC Swift x".toList)) :=
  C1_inject_all_missing "Java ObjC Swift x".toList
    (by decide) (by decide) (by decide) (by decide) (by decide) (by decide)

/-- C3: if a bridge module is already imported somewhere in the text,
the injector adds no second statement for it — the number of
scanner-recognised imports of that module in the output equals the
number in the input — and when no module needs injection the output is
the input, unchanged. -/
theorem C3_no_duplicate_import (src : List Char) :
    (∀ b ∈ BRIDGE_MAPPINGS, memB (find_frida_bridges src) b.pkg = true →
      List.count b.pkg (find_frida_bridges (inject_missing_bridges src)) =
        List.count b.pkg (find_frida_bridges src)) ∧
    (injBridges src = [] → inject_missing_bridges src = src) := by
  constructor
  · intro b hb hmem
    by_cases hne : injBridges src = []
    · rw [inject_of_nil src hne]
    · rw [inject_of_ne src hne]
      have hsub : ∀ b' ∈ injBridges src, b' ∈ BRIDGE_MAPPINGS :=
        fun b' h => List.mem_of_mem_filter h
      rw [find_concatBlk _ _ hsub, List.count_append]
      have hzero : List.count b.pkg ((injBridges src).map Bridge.pkg) = 0 := by
        rw [List.count_eq_zero]
        intro hmemmap
        rcases List.mem_map.mp hmemmap with ⟨b', hb', hpkg⟩
        have : b' = b := mappings_pkg_inj b hb b' (hsub b' hb') hpkg
        subst this
        have hcond := (List.mem_filter.mp hb').2
        simp [hmem] at hcond
      rw [hzero]
      omega
  · exact inject_of_nil src

theorem C3_witness :
    List.count javaBridge.pkg
        (find_frida_bridges (inject_missing_bridges
          "import Java from \"frida-java-bridge\";\nJava.use(c)".toList)) =
      List.count javaBridge.pkg
        (find_frida_bridges "import Java from \"frida-java-bridge\";\nJava.use(c)".toList) :=
  (C3_no_duplicate_import "import Java from \"frida-java-bridge\";\nJava.use(c)".toList).1
    javaBridge (by decide) (by decide)

/-!
The `/compile` handler.  External interactions — the outcomes of the
four external commands, the scaffold-generated files, the parsed
`tsconfig.json`, the availability of `bun`, the success of directory
creation and removal — are oracles collected in an `Env`.  The handler
is a pure function of the request and the environment returning the
HTTP-level result together with the ordered trace of effects it
performed (commands run, directories made, files written or removed,
cleanup calls).
-/

/-- A JSON value, as far as the tsconfig patching step observes it. -/
inductive Jval
  | jBool (b : Bool)
  | jNum (n : Int)
  | jStr (s : List Char)
  | jNull
  | jObj (fields : List (String × Jval))

/-- A parsed JSON object (Python dict in insertion order). -/
abbrev TsConfig := List (String × Jval)

/-- Dict membership test and lookup on the parsed config. -/
def lookupJ : TsConfig → String → Option Jval
  | [], _ => none
  | (k', v) :: fs, k => if k' = k then some v else lookupJ fs k

/-- Dict assignment `d[k] = v`: replace in place if the key exists,
append otherwise (insertion order, as Python dicts and `json.dump`
preserve it). -/
def assocSet : TsConfig → String → Jval → TsConfig
  | [], k, v => [(k, v)]
  | (k', v') :: fs, k, v =>
    if k' = k then (k, v) :: fs else (k', v') :: assocSet fs k v

/-- Error as the handler classifies it: a bottle `HTTPError`, or any
other Python exception (carrying `str(e)`). -/
inductive HErr
  | http (code : Nat) (msg : String)
  | exn (msg : String)
deriving DecidableEq

/-- One observable effect of the handler, in execution order. -/
inductive Event
  | cmdE (args : List String) (cwd : String)
  | mkdirE (path : String)
  | writeCfgE (cfg : TsConfig)
  | unlinkE (name : List Char)
  | writeFileE (name : List Char) (content : List Char)
  | cleanupE (path : String)

/-- A pipeline step: its result (or error) and the effects it emitted. -/
abbrev Step (α : Type) := Except HErr α × List Event

/-- Sequencing of steps: on error the remaining steps do not run. -/
def seqE {α β : Type} (x : Step α) (f : α → Step β) : Step β :=
  match x with
  | (Except.error e, tr) => (Except.error e, tr)
  | (Except.ok a, tr) =>
    match f a with
    | (r, tr2) => (r, tr ++ tr2)

/-- `run_command` from src/main.py: runs the command (one `cmdE`
event); a non-zero exit becomes an HTTPError with code 500 whose body
is the fixed label, a newline and the captured output.  The oracle
`exit` is `none` on success, `some output` on
failure.  (The captured stdout is not used by the compile pipeline, so
the model returns `Unit`.) -/
def run_command (args : List String) (cwd : String) (exit : Option String) : Step Unit :=
  match exit with
  | none => (Except.ok (), [Event.cmdE args cwd])
  | some out =>
    (Except.error (HErr.http 500 ("Build step failed:\n" ++ out)), [Event.cmdE args cwd])

/-- `shutil.rmtree`, which may raise. -/
def rmtree (ok : Bool) : Except String Unit :=
  if ok then Except.ok () else Except.error "removal failed"

/-- `cleanup_directory` from src/main.py: tries `rmtree` and swallows
(logs) any failure; it never raises to its caller. -/
def cleanup_directory (rmtreeOk : Bool) : Except String Unit :=
  match rmtree rmtreeOk with
  | Except.ok _ => Except.ok ()
  | Except.error _ => Except.ok ()

/-- One entry of the uploaded zip archive (`ZipInfo` plus its bytes,
read as text). -/
structure ZipMember where
  filename : List Char
  content : List Char
deriving DecidableEq

/-- The uploaded file: its name, its decoded text (used when it is not
a zip), and its archive entries (used when the name ends in `.zip`). -/
structure UploadFile where
  filename : List Char
  text : List Char
  zipMembers : List ZipMember
deriving DecidableEq

/-- The multipart form of a compile request: the file entry of
`request.files` and the snippet entry of `request.forms` (an absent
field is `none`). -/
structure CompileRequest where
  upload : Option UploadFile
  snippet : Option (List Char)
deriving DecidableEq

/-- Oracles for everything outside the handler itself. -/
structure Env where
  runId : String
  makedirsOk : Bool
  scaffoldExit : Option String
  tsconfig : Option TsConfig
  agentDirExists : Bool
  scaffoldFiles : List (List Char × List Char)
  bunAvailable : Bool
  installExit : Option String
  addExit : Option String
  compileExit : Option String
  rmtreeOk : Bool

def buildRootOf (e : Env) : String := "/tmp/frida_builds/" ++ e.runId

def outputDirOf (e : Env) : String := buildRootOf e ++ "/output"

def agentDirOf (e : Env) : String := outputDirOf e ++ "/agent"

def scaffoldCmd : List String := ["frida-create", "-t", "agent", "-o", "output"]

/-- Python truthiness of the snippet form field: an absent field and
the empty string are falsy. -/
def snippetTruthy : Option (List Char) → Bool
  | none => false
  | some s => !s.isEmpty

def endsL (suf s : List Char) : Bool := suf.isSuffixOf s

/-- `os.path.basename` on POSIX: the part after the last slash. -/
def basenameL (s : List Char) : List Char :=
  (s.reverse.takeWhile (fun c => c != '/')).reverse

def tsExt : List Char := ".ts".toList

def jsExt : List Char := ".js".toList

def zipExt : List Char := ".zip".toList

def indexName : List Char := "index.ts".toList

/-- The agent directory contents: file name ↦ text. -/
abbrev FS := List (List Char × List Char)

def fsHas (fs : FS) (n : List Char) : Bool := fs.any (fun p => p.1 == n)

/-- Writing a file: overwrite by name, else append. -/
def fsWrite (fs : FS) (n c : List Char) : FS :=
  if fsHas fs n then fs.map (fun p => if p.1 == n then (n, c) else p)
  else fs ++ [(n, c)]

/-- `os.makedirs(build_root, exist_ok=True)`. -/
def makedirsStep (e : Env) : Step Unit :=
  if e.makedirsOk then (Except.ok (), [Event.mkdirE (buildRootOf e)])
  else (Except.error (HErr.exn "makedirs failed"), [Event.mkdirE (buildRootOf e)])

/-- Lines 148-158: if `compilerOptions` is present (and is an object)
set its `strict` entry to `False`; a present non-object raises
`TypeError` (an unexpected exception). -/
def setStrict (cfg : TsConfig) : Except String TsConfig :=
  match lookupJ cfg "compilerOptions" with
  | some (Jval.jObj fs) =>
    Except.ok (assocSet cfg "compilerOptions"
      (Jval.jObj (assocSet fs "strict" (Jval.jBool false))))
  | some _ => Except.error "TypeError: item assignment on a non-object"
  | none => Except.ok cfg

/-- The tsconfig patching step: skipped silently when the file does not
exist; otherwise patch and rewrite the file. -/
def tsconfigStep (t : Option TsConfig) : Step Unit :=
  match t with
  | none => (Except.ok (), [])
  | some cfg =>
    match setStrict cfg with
    | Except.ok cfg2 => (Except.ok (), [Event.writeCfgE cfg2])
    | Except.error m => (Except.error (HErr.exn m), [])

/-- Lines 160-164: delete the scaffold-generated `*.ts` entry scripts
when the agent directory exists, create the directory otherwise.
Returns the surviving initial contents of the agent directory. -/
def clearStep (e : Env) : Step FS :=
  if e.agentDirExists then
    (Except.ok (e.scaffoldFiles.filter (fun f => !(endsL tsExt f.1))),
      (e.scaffoldFiles.filter (fun f => endsL tsExt f.1)).map
        (fun f => Event.unlinkE f.1))
  else (Except.ok [], [Event.mkdirE (agentDirOf e)])

/-- Lines 176-185: write every archive member whose base name is
nonempty and ends in `.ts` or `.js` under its base name (path
components discarded); skip everything else. -/
def extractZip : List ZipMember → FS → FS × List Event
  | [], fs => (fs, [])
  | m :: ms, fs =>
    if !(basenameL m.filename).isEmpty &&
        (endsL tsExt (basenameL m.filename) || endsL jsExt (basenameL m.filename)) then
      ((extractZip ms (fsWrite fs (basenameL m.filename) m.content)).1,
        Event.writeFileE (basenameL m.filename) m.content ::
          (extractZip ms (fsWrite fs (basenameL m.filename) m.content)).2)
    else extractZip ms fs

/-- Lines 189-200: run the injector over every `.ts` file of the agent
directory, rewriting the file only when the text changed. -/
def injectPass : FS → FS × List Event
  | [] => ([], [])
  | (n, c) :: fs =>
    if endsL tsExt n then
      if inject_missing_bridges c == c then
        ((n, c) :: (injectPass fs).1, (injectPass fs).2)
      else
        ((n, inject_missing_bridges c) :: (injectPass fs).1,
          Event.writeFileE n (inject_missing_bridges c) :: (injectPass fs).2)
    else ((n, c) :: (injectPass fs).1, (injectPass fs).2)

/-- Lines 166-207: populate the agent directory from the request.  A
truthy snippet is injected and written as `index.ts`; a non-zip upload
likewise; a zip upload is extracted, required to contain `index.ts`
(HTTP 400 otherwise, after extraction), then its `.ts` files are run
through the injector. -/
def populateStep (snippet : Option (List Char)) (upload : Option UploadFile)
    (fs0 : FS) : Step FS :=
  if snippetTruthy snippet then
    (Except.ok (fsWrite fs0 indexName (inject_missing_bridges (snippet.getD []))),
      [Event.writeFileE indexName (inject_missing_bridges (snippet.getD []))])
  else
    match upload with
    | none => (Except.ok fs0, [])
    | some u =>
      if endsL zipExt u.filename then
        if fsHas (extractZip u.zipMembers fs0).1 indexName then
          (Except.ok (injectPass (extractZip u.zipMembers fs0).1).1,
            (extractZip u.zipMembers fs0).2 ++ (injectPass (extractZip u.zipMembers fs0).1).2)
        else
          (Except.error (HErr.http 400 "ZIP must contain an index.ts file."),
            (extractZip u.zipMembers fs0).2)
      else
        (Except.ok (fsWrite fs0 indexName (inject_missing_bridges u.text)),
          [Event.writeFileE indexName (inject_missing_bridges u.text)])

/-- The dependency manager: bun when `shutil.which` finds it, npm
otherwise. -/
def managerOf (e : Env) : String := if e.bunAvailable then "bun" else "npm"

def installStep (e : Env) : Step Unit :=
  run_command [managerOf e, "install", "--ignore-scripts"] (outputDirOf e) e.installExit

/-- `collect_bridge_deps`: the distinct bridge modules imported by the
`.ts` files and then the `.js` files of the agent directory. -/
def collect_bridge_deps (fs : FS) : List (List Char) :=
  ((((fs.filter (fun p => endsL tsExt p.1)).map (fun p => find_frida_bridges p.2)).flatten ++
    ((fs.filter (fun p => endsL jsExt p.1)).map (fun p => find_frida_bridges p.2)).flatten).dedup)

/-- Lines 215-219: install the detected bridge dependencies, if any. -/
def depsStep (e : Env) (deps : List (List Char)) : Step Unit :=
  if deps.isEmpty then (Except.ok (), [])
  else if e.bunAvailable then
    run_command ("bun" :: "add" :: deps.map String.mk) (outputDirOf e) e.addExit
  else
    run_command ("npm" :: "install" :: deps.map String.mk) (outputDirOf e) e.addExit

def compileStep (e : Env) : Step Unit :=
  run_command ["frida-compile", "agent/index.ts", "-o", "_agent.js", "-c"]
    (outputDirOf e) e.compileExit

/-- The served artifact (`static_file` of `_agent.js`). -/
structure Response where
  filename : String
  mimetype : String
deriving DecidableEq

def agentResponse : Response := ⟨"_agent.js", "application/javascript"⟩

/-- The body of the `try` block of `compile_agent` (lines 141-237,
before cleanup). -/
def handlerBody (req : CompileRequest) (e : Env) : Step Response :=
  seqE (makedirsStep e) (fun _ =>
  seqE (run_command scaffoldCmd (buildRootOf e) e.scaffoldExit) (fun _ =>
  seqE (tsconfigStep e.tsconfig) (fun _ =>
  seqE (clearStep e) (fun fs0 =>
  seqE (populateStep req.snippet req.upload fs0) (fun fs =>
  seqE (installStep e) (fun _ =>
  seqE (depsStep e (collect_bridge_deps fs)) (fun _ =>
  seqE (compileStep e) (fun _ =>
  (Except.ok agentResponse, [])))))))))

/-- `compile_agent` from src/main.py: input validation (Python
truthiness), then the pipeline; `cleanup_directory(build_root)` runs on
the success path, on the `HTTPError` path (re-raised) and on the
generic exception path (wrapped into `HTTPError(500, str(e))`). -/
def compile_agent (req : CompileRequest) (e : Env) : Except HErr Response × List Event :=
  if req.upload.isSome && snippetTruthy req.snippet then
    (Except.error (HErr.http 400 "Provide either a file or a snippet."), [])
  else if !req.upload.isSome && !snippetTruthy req.snippet then
    (Except.error (HErr.http 400
      "No input provided. Upload a .ts file or a zip file containig multiple .ts scripts or provide a snippet."),
      [])
  else
    match handlerBody req e with
    | (Except.ok r, evs) => (Except.ok r, evs ++ [Event.cleanupE (buildRootOf e)])
    | (Except.error (HErr.http c m), evs) =>
      (Except.error (HErr.http c m), evs ++ [Event.cleanupE (buildRootOf e)])
    | (Except.error (HErr.exn m), evs) =>
      (Except.error (HErr.http 500 m), evs ++ [Event.cleanupE (buildRootOf e)])

/-- The commands of a trace, in order. -/
def cmdsOf (evs : List Event) : List (List String × String) :=
  evs.filterMap (fun ev =>
    match ev with
    | Event.cmdE args cwd => some (args, cwd)
    | _ => none)

def isCleanupEv : Event → Bool
  | Event.cleanupE _ => true
  | _ => false


theorem seqE_ok {α β : Type} (a : α) (tr : List Event) (f : α → Step β) :
    seqE (Except.ok a, tr) f = ((f a).1, tr ++ (f a).2) := by
  rcases h : f a with ⟨r2, tr2⟩
  simp [seqE, h]

theorem seqE_err {α β : Type} (err : HErr) (tr : List Event) (f : α → Step β) :
    seqE (Except.error err, tr) f = (Except.error err, tr) := rfl

/-- A trace with no cleanup call. -/
def noCleanup (evs : List Event) : Prop := ∀ ev ∈ evs, isCleanupEv ev = false

theorem noCleanup_nil : noCleanup [] := by
  intro ev hev
  simp at hev

theorem noCleanup_append (a b : List Event) (ha : noCleanup a) (hb : noCleanup b) :
    noCleanup (a ++ b) := by
  intro ev hev
  rcases List.mem_append.mp hev with h | h
  · exact ha ev h
  · exact hb ev h

theorem seqE_noCleanup {α β : Type} (x : Step α) (f : α → Step β)
    (hx : noCleanup x.2) (hf : ∀ a, noCleanup (f a).2) : noCleanup (seqE x f).2 := by
  rcases x with ⟨r, tr⟩
  cases r with
  | error e => exact hx
  | ok a =>
    rw [seqE_ok]
    exact noCleanup_append _ _ hx (hf a)

theorem noCleanup_makedirs (e : Env) : noCleanup (makedirsStep e).2 := by
  unfold makedirsStep
  split <;> intro ev hev <;> simp at hev <;> subst hev <;> rfl

theorem noCleanup_run_command (args : List String) (cwd : String) (exit : Option String) :
    noCleanup (run_command args cwd exit).2 := by
  unfold run_command
  cases exit <;> intro ev hev <;> simp at hev <;> subst hev <;> rfl

theorem noCleanup_tsconfig (t : Option TsConfig) : noCleanup (tsconfigStep t).2 := by
  unfold tsconfigStep
  cases t with
  | none => exact noCleanup_nil
  | some cfg =>
    dsimp only
    cases h : setStrict cfg with
    | ok cfg2 =>
      simp only [h]
      intro ev hev
      simp at hev
      subst hev
      rfl
    | error m =>
      simp only [h]
      exact noCleanup_nil

theorem noCleanup_clear (e : Env) : noCleanup (clearStep e).2 := by
  unfold clearStep
  split
  · intro ev hev
    simp only [List.mem_map] at hev
    rcases hev with ⟨f, _, rfl⟩
    rfl
  · intro ev hev
    simp at hev
    subst hev
    rfl

theorem noCleanup_extract (ms : List ZipMember) (fs : FS) :
    noCleanup (extractZip ms fs).2 := by
  induction ms generalizing fs with
  | nil => exact noCleanup_nil
  | cons m ms ih =>
    unfold extractZip
    split
    · intro ev hev
      rcases List.mem_cons.mp hev with h | h
      · subst h; rfl
      · exact ih _ ev h
    · exact ih fs

theorem noCleanup_injectPass (fs : FS) : noCleanup (injectPass fs).2 := by
  induction fs with
  | nil => exact noCleanup_nil
  | cons p fs ih =>
    rcases p with ⟨n, c⟩
    unfold injectPass
    split
    · split
      · exact ih
      · intro ev hev
        rcases List.mem_cons.mp hev with h | h
        · subst h; rfl
        · exact ih ev h
    · exact ih

theorem noCleanup_populate (snippet : Option (List Char)) (upload : Option UploadFile)
    (fs0 : FS) : noCleanup (populateStep snippet upload fs0).2 := by
  unfold populateStep
  split
  · intro ev hev
    simp at hev
    subst hev
    rfl
  · cases upload with
    | none => exact noCleanup_nil
    | some u =>
      dsimp only
      split
      · split
        · exact noCleanup_append _ _ (noCleanup_extract _ _) (noCleanup_injectPass _)
        · exact noCleanup_extract _ _
      · intro ev hev
        simp at hev
        subst hev
        rfl

theorem noCleanup_deps (e : Env) (deps : List (List Char)) :
    noCleanup (depsStep e deps).2 := by
  unfold depsStep
  split
  · exact noCleanup_nil
  · split <;> exact noCleanup_run_command _ _ _

/-- The try-block of the handler performs no cleanup itself. -/
theorem handlerBody_noCleanup (req : CompileRequest) (e : Env) :
    noCleanup (handlerBody req e).2 := by
  unfold handlerBody
  refine seqE_noCleanup _ _ (noCleanup_makedirs e) (fun _ => ?_)
  refine seqE_noCleanup _ _ (noCleanup_run_command _ _ _) (fun _ => ?_)
  refine seqE_noCleanup _ _ (noCleanup_tsconfig _) (fun _ => ?_)
  refine seqE_noCleanup _ _ (noCleanup_clear _) (fun fs0 => ?_)
  refine seqE_noCleanup _ _ (noCleanup_populate _ _ _) (fun fs => ?_)
  refine seqE_noCleanup _ _ (noCleanup_run_command _ _ _) (fun _ => ?_)
  refine seqE_noCleanup _ _ (noCleanup_deps _ _) (fun _ => ?_)
  refine seqE_noCleanup _ _ (noCleanup_run_command _ _ _) (fun _ => ?_)
  exact noCleanup_nil

/-- C5: every request that passes validation (and therefore allocates a
workspace) performs the cleanup of the build root exactly once, as the
final effect, on the success path and on both error paths alike; and
`cleanup_directory` never raises, whether or not the removal works. -/
theorem C5_cleanup_exactly_once (req : CompileRequest) (e : Env)
    (hv1 : (req.upload.isSome && snippetTruthy req.snippet) = false)
    (hv2 : (!req.upload.isSome && !snippetTruthy req.snippet) = false) :
    (∃ tr, (compile_agent req e).2 = tr ++ [Event.cleanupE (buildRootOf e)] ∧
      noCleanup tr) ∧
    (∀ b : Bool, cleanup_directory b = Except.ok ()) := by
  constructor
  · unfold compile_agent
    simp only [hv1, hv2, Bool.false_eq_true, if_false]
    have hnc := handlerBody_noCleanup req e
    rcases hb : handlerBody req e with ⟨r, evs⟩
    rw [hb] at hnc
    cases r with
    | ok v => exact ⟨evs, rfl, hnc⟩
    | error err =>
      cases err with
      | http c m => exact ⟨evs, rfl, hnc⟩
      | exn m => exact ⟨evs, rfl, hnc⟩
  · intro b
    cases b <;> rfl

theorem C5_witness :
    (∃ tr, (compile_agent ⟨none, some "Java.use(x)".toList⟩
        ⟨"RID", true, none, none, true, [], true, none, none, none, true⟩).2 =
      tr ++ [Event.cleanupE (buildRootOf
        ⟨"RID", true, none, none, true, [], true, none, none, none, true⟩)] ∧
      noCleanup tr) ∧
    (∀ b : Bool, cleanup_directory b = Except.ok ()) :=
  C5_cleanup_exactly_once ⟨none, some "Java.use(x)".toList⟩
    ⟨"RID", true, none, none, true, [], true, none, none, none, true⟩ rfl rfl

/-- C8: a request that supplies both inputs (by Python truthiness), or
neither, is rejected with HTTP 400 and an empty effect trace — before
any directory is created and before any external command runs. -/
theorem C8_validation_rejects (req : CompileRequest) (e : Env) :
    ((req.upload.isSome && snippetTruthy req.snippet) = true →
      compile_agent req e =
        (Except.error (HErr.http 400 "Provide either a file or a snippet."), [])) ∧
    ((!req.upload.isSome && !snippetTruthy req.snippet) = true →
      compile_agent req e =
        (Except.error (HErr.http 400
          "No input provided. Upload a .ts file or a zip file containig multiple .ts scripts or provide a snippet."),
          [])) := by
  constructor
  · intro h
    simp [compile_agent, h]
  · intro h
    have h2 : req.upload.isSome = false ∧ snippetTruthy req.snippet = false := by
      simpa using h
    simp [compile_agent, h2.1, h2.2]

theorem C8_witness :
    compile_agent ⟨some ⟨"a.ts".toList, "x".toList, []⟩, some "y".toList⟩
        ⟨"RID", true, none, none, true, [], true, none, none, none, true⟩ =
      (Except.error (HErr.http 400 "Provide either a file or a snippet."), []) ∧
    compile_agent (⟨none, none⟩ : CompileRequest)
        ⟨"RID", true, none, none, true, [], true, none, none, none, true⟩ =
      (Except.error (HErr.http 400
        "No input provided. Upload a .ts file or a zip file containig multiple .ts scripts or provide a snippet."),
        []) :=
  ⟨(C8_validation_rejects _ _).1 rfl, (C8_validation_rejects _ _).2 rfl⟩

/-- C10: a present-but-empty snippet field is falsy, so alone it yields
the no-input 400, and next to a file upload it is not a conflicting
second input — the whole run is identical to one with no snippet
field. -/
theorem C10_empty_snippet_falsy (e : Env) (u : UploadFile) :
    (compile_agent ⟨none, some []⟩ e =
      (Except.error (HErr.http 400
        "No input provided. Upload a .ts file or a zip file containig multiple .ts scripts or provide a snippet."),
        [])) ∧
    (compile_agent ⟨some u, some []⟩ e = compile_agent ⟨some u, none⟩ e) := by
  constructor
  · rfl
  · rfl

/-- The agent-directory contents surviving the clearing step. -/
def clearFS (e : Env) : FS :=
  if e.agentDirExists then e.scaffoldFiles.filter (fun f => !(endsL tsExt f.1)) else []

/-- The effects of the clearing step. -/
def clearEvs (e : Env) : List Event :=
  if e.agentDirExists then
    (e.scaffoldFiles.filter (fun f => endsL tsExt f.1)).map (fun f => Event.unlinkE f.1)
  else [Event.mkdirE (agentDirOf e)]

theorem clearStep_eq (e : Env) : clearStep e = (Except.ok (clearFS e), clearEvs e) := by
  cases h : e.agentDirExists <;> simp [clearStep, clearFS, clearEvs, h]

theorem fsHas_eq_false_iff (fs : FS) (m : List Char) :
    fsHas fs m = false ↔ ∀ p ∈ fs, (p.1 == m) = false := by
  rw [fsHas, List.any_eq_false]
  simp

theorem fsHas_fsWrite_of_ne (fs : FS) (n c m : List Char)
    (h1 : fsHas fs m = false) (h2 : (n == m) = false) :
    fsHas (fsWrite fs n c) m = false := by
  have h1' := (fsHas_eq_false_iff fs m).mp h1
  unfold fsWrite
  split
  · rw [fsHas_eq_false_iff]
    intro q hq
    rcases List.mem_map.mp hq with ⟨p, hp, rfl⟩
    by_cases hpn : (p.1 == n) = true
    · rw [if_pos hpn]
      exact h2
    · rw [if_neg hpn]
      exact h1' p hp
  · rw [fsHas_eq_false_iff]
    intro q hq
    rcases List.mem_append.mp hq with h | h
    · exact h1' q h
    · simp only [List.mem_singleton] at h
      subst h
      exact h2

theorem extract_no_index (ms : List ZipMember) (fs : FS)
    (hms : ∀ m ∈ ms, (basenameL m.filename == indexName) = false)
    (hfs : fsHas fs indexName = false) :
    fsHas (extractZip ms fs).1 indexName = false := by
  induction ms generalizing fs with
  | nil => exact hfs
  | cons m ms ih =>
    unfold extractZip
    split
    · exact ih _ (fun m' h => hms m' (List.mem_cons_of_mem _ h))
        (fsHas_fsWrite_of_ne _ _ _ _ hfs (hms m (List.mem_cons_self m ms)))
    · exact ih fs (fun m' h => hms m' (List.mem_cons_of_mem _ h)) hfs

theorem fsHas_clearFS_index (e : Env) : fsHas (clearFS e) indexName = false := by
  unfold clearFS
  split
  · rw [fsHas_eq_false_iff]
    intro p hp
    have h2 := (List.mem_filter.mp hp).2
    cases hq : (p.1 == indexName) with
    | false => rfl
    | true =>
      have hpi : p.1 = indexName := by simpa using hq
      rw [hpi] at h2
      exact absurd h2 (by decide)
  · rfl

/-- The effects of zip extraction, independent of the directory state:
one write per member whose base name is nonempty and script-like. -/
def zipWriteEvents (ms : List ZipMember) : List Event :=
  ms.filterMap (fun m =>
    if !(basenameL m.filename).isEmpty &&
        (endsL tsExt (basenameL m.filename) || endsL jsExt (basenameL m.filename)) then
      some (Event.writeFileE (basenameL m.filename) m.content)
    else none)

theorem extractZip_events (ms : List ZipMember) (fs : FS) :
    (extractZip ms fs).2 = zipWriteEvents ms := by
  induction ms generalizing fs with
  | nil => rfl
  | cons m ms ih =>
    by_cases hc : (!(basenameL m.filename).isEmpty &&
        (endsL tsExt (basenameL m.filename) || endsL jsExt (basenameL m.filename))) = true
    · simp only [extractZip, zipWriteEvents, List.filterMap_cons]
      rw [if_pos hc, if_pos hc]
      dsimp only
      rw [ih]
      rfl
    · simp only [extractZip, zipWriteEvents, List.filterMap_cons]
      rw [if_neg hc, if_neg hc]
      dsimp only
      exact ih fs

theorem cmdsOf_append (a b : List Event) : cmdsOf (a ++ b) = cmdsOf a ++ cmdsOf b := by
  simp [cmdsOf]

theorem cmdsOf_zipWriteEvents (ms : List ZipMember) : cmdsOf (zipWriteEvents ms) = [] := by
  induction ms with
  | nil => rfl
  | cons m ms ih =>
    by_cases hc : (!(basenameL m.filename).isEmpty &&
        (endsL tsExt (basenameL m.filename) || endsL jsExt (basenameL m.filename))) = true
    · simp only [zipWriteEvents, List.filterMap_cons]
      rw [if_pos hc]
      dsimp only
      simp only [cmdsOf, List.filterMap_cons]
      exact ih
    · simp only [zipWriteEvents, List.filterMap_cons]
      rw [if_neg hc]
      dsimp only
      exact ih

theorem cmdsOf_unlinks (l : List (List Char × List Char)) :
    cmdsOf (l.map (fun f => Event.unlinkE f.1)) = [] := by
  induction l with
  | nil => rfl
  | cons f l ih =>
    simp only [List.map_cons, cmdsOf, List.filterMap_cons]
    exact ih

theorem cmdsOf_clearEvs (e : Env) : cmdsOf (clearEvs e) = [] := by
  unfold clearEvs
  split
  · exact cmdsOf_unlinks _
  · rfl

/-- C4 as stated is false: on a zip upload lacking `index.ts` the
request does get HTTP 400, but the scaffold generator has already been
invoked by then — the trace of external commands is not empty. -/
theorem C4_counterexample :
    (compile_agent ⟨some ⟨"agent.zip".toList, [], [⟨"x.ts".toList, "t".toList⟩]⟩, none⟩
        ⟨"RID", true, none, none, true, [], true, none, none, none, true⟩).1 =
      Except.error (HErr.http 400 "ZIP must contain an index.ts file.") ∧
    cmdsOf (compile_agent ⟨some ⟨"agent.zip".toList, [], [⟨"x.ts".toList, "t".toList⟩]⟩, none⟩
        ⟨"RID", true, none, none, true, [], true, none, none, none, true⟩).2 =
      [(scaffoldCmd,
        buildRootOf ⟨"RID", true, none, none, true, [], true, none, none, none, true⟩)] :=
  ⟨rfl, rfl⟩

/-- C4 amended: a zip upload lacking an `index.ts` member yields HTTP
400 (once the earlier steps — directory creation, scaffold run,
tsconfig patch — succeed), and the only external command run for the
request is the scaffold generator: no package-manager and no bundler
invocation occurs. -/
theorem C4_zip_missing_index (req : CompileRequest) (e : Env) (u : UploadFile)
    (hu : req.upload = some u)
    (hz : endsL zipExt u.filename = true)
    (hs : snippetTruthy req.snippet = false)
    (hnoidx : ∀ m ∈ u.zipMembers, (basenameL m.filename == indexName) = false)
    (hmk : e.makedirsOk = true)
    (hsc : e.scaffoldExit = none)
    (hts : ∀ cfg, e.tsconfig = some cfg → ∃ cfg2, setStrict cfg = Except.ok cfg2) :
    (compile_agent req e).1 =
      Except.error (HErr.http 400 "ZIP must contain an index.ts file.") ∧
    cmdsOf (compile_agent req e).2 = [(scaffoldCmd, buildRootOf e)] := by
  obtain ⟨cfgEvs, htsS, hcfgCmds⟩ :
      ∃ evs, tsconfigStep e.tsconfig = (Except.ok (), evs) ∧ cmdsOf evs = [] := by
    cases ht : e.tsconfig with
    | none => exact ⟨[], rfl, rfl⟩
    | some cfg =>
      obtain ⟨cfg2, h2⟩ := hts cfg ht
      refine ⟨[Event.writeCfgE cfg2], ?_, rfl⟩
      simp [tsconfigStep, h2]
  have hnoix := extract_no_index u.zipMembers (clearFS e) hnoidx (fsHas_clearFS_index e)
  have hmk2 : makedirsStep e = (Except.ok (), [Event.mkdirE (buildRootOf e)]) := by
    simp [makedirsStep, hmk]
  have hsc2 : run_command scaffoldCmd (buildRootOf e) e.scaffoldExit =
      (Except.ok (), [Event.cmdE scaffoldCmd (buildRootOf e)]) := by
    simp [run_command, hsc]
  have hpop : populateStep req.snippet req.upload (clearFS e) =
      (Except.error (HErr.http 400 "ZIP must contain an index.ts file."),
        zipWriteEvents u.zipMembers) := by
    rw [hu]
    simp only [populateStep, hs, Bool.false_eq_true, if_false]
    try dsimp only
    rw [if_pos hz]
    rw [if_neg (by rw [hnoix]; exact Bool.false_ne_true)]
    rw [extractZip_events]
  have hbody : handlerBody req e =
      (Except.error (HErr.http 400 "ZIP must contain an index.ts file."),
        [Event.mkdirE (buildRootOf e)] ++ ([Event.cmdE scaffoldCmd (buildRootOf e)] ++
          (cfgEvs ++ (clearEvs e ++ zipWriteEvents u.zipMembers)))) := by
    unfold handlerBody
    rw [hmk2, seqE_ok]
    try dsimp only
    rw [hsc2, seqE_ok]
    try dsimp only
    rw [htsS, seqE_ok]
    try dsimp only
    rw [clearStep_eq, seqE_ok]
    try dsimp only
    rw [hpop, seqE_err]
  have hrun : compile_agent req e =
      (Except.error (HErr.http 400 "ZIP must contain an index.ts file."),
        ([Event.mkdirE (buildRootOf e)] ++ ([Event.cmdE scaffoldCmd (buildRootOf e)] ++
          (cfgEvs ++ (clearEvs e ++ zipWriteEvents u.zipMembers)))) ++
          [Event.cleanupE (buildRootOf e)]) := by
    unfold compile_agent
    rw [hu, hs]
    simp only [Option.isSome_some, Bool.and_false, Bool.false_eq_true, if_false,
      Bool.not_true, Bool.not_false, Bool.false_and, hbody]
  constructor
  · rw [hrun]
  · rw [hrun]
    simp only [cmdsOf_append, hcfgCmds, cmdsOf_clearEvs, cmdsOf_zipWriteEvents]
    simp [cmdsOf]

theorem C4_witness :
    (compile_agent ⟨some ⟨"b.zip".toList, [], [⟨"d/helper.js".toList, "h".toList⟩]⟩, none⟩
        ⟨"R2", true, none, none, false, [], false, none, none, none, true⟩).1 =
      Except.error (HErr.http 400 "ZIP must contain an index.ts file.") ∧
    cmdsOf (compile_agent ⟨some ⟨"b.zip".toList, [], [⟨"d/helper.js".toList, "h".toList⟩]⟩, none⟩
        ⟨"R2", true, none, none, false, [], false, none, none, none, true⟩).2 =
      [(scaffoldCmd, buildRootOf ⟨"R2", true, none, none, false, [], false, none, none, none, true⟩)] :=
  C4_zip_missing_index _ _ _ rfl rfl rfl (by decide) rfl rfl (fun cfg h => nomatch h)

/-- The zip-mode injection pass rewrites exactly the `.ts` files with
their injected text and leaves every other file untouched. -/
theorem injectPass_fst (fs : FS) :
    (injectPass fs).1 =
      fs.map (fun p => if endsL tsExt p.1 then (p.1, inject_missing_bridges p.2) else p) := by
  induction fs with
  | nil => rfl
  | cons p fs ih =>
    rcases p with ⟨n, c⟩
    by_cases hts : endsL tsExt n = true
    · by_cases heq : (inject_missing_bridges c == c) = true
      · have hceq : inject_missing_bridges c = c := by simpa using heq
        simp only [injectPass, List.map_cons]
        rw [if_pos hts, if_pos heq, if_pos hts]
        dsimp only
        rw [ih, hceq]
      · simp only [injectPass, List.map_cons]
        rw [if_pos hts, if_neg heq, if_pos hts]
        dsimp only
        rw [ih]
    · simp only [injectPass, List.map_cons]
      rw [if_neg hts, if_neg hts]
      dsimp only
      rw [ih]

/-- C6 as stated is false: with an all-success environment, a zip
containing `index.ts` and a `helper.js` that uses `Java` writes
`helper.js` with its raw extracted content and never rewrites it — the
injector is not applied to `.js` zip members — although the injector
would have changed that content. -/
theorem C6_counterexample :
    ((compile_agent
        ⟨some ⟨"a.zip".toList, [],
          [⟨"index.ts".toList, "x".toList⟩, ⟨"helper.js".toList, "Java.use(x)".toList⟩]⟩,
          none⟩
        ⟨"RID", true, none, none, true, [], true, none, none, none, true⟩).2.filterMap
      (fun ev =>
        match ev with
        | Event.writeFileE n c =>
          if n == "helper.js".toList then some c else none
        | _ => none)) = ["Java.use(x)".toList] ∧
    inject_missing_bridges "Java.use(x)".toList ≠ "Java.use(x)".toList := by
  constructor
  · rfl
  · decide

/-- C6 amended: during population, a truthy snippet and a non-zip
upload are run through the Import Injector and written as `index.ts`;
for a zip upload (containing `index.ts`) every extracted `.ts` file is
run through the injector, while extracted `.js` files keep their raw
extracted content — they are not injected. -/
theorem C6_populate_injection (s : Option (List Char)) (u : UploadFile) (fs0 : FS) :
    (snippetTruthy s = true →
      populateStep s (some u) fs0 =
        (Except.ok (fsWrite fs0 indexName (inject_missing_bridges (s.getD []))),
          [Event.writeFileE indexName (inject_missing_bridges (s.getD []))])) ∧
    (snippetTruthy s = false → endsL zipExt u.filename = false →
      populateStep s (some u) fs0 =
        (Except.ok (fsWrite fs0 indexName (inject_missing_bridges u.text)),
          [Event.writeFileE indexName (inject_missing_bridges u.text)])) ∧
    (snippetTruthy s = false → endsL zipExt u.filename = true →
      fsHas (extractZip u.zipMembers fs0).1 indexName = true →
      (populateStep s (some u) fs0).1 =
        Except.ok ((extractZip u.zipMembers fs0).1.map
          (fun p => if endsL tsExt p.1 then (p.1, inject_missing_bridges p.2) else p))) := by
  refine ⟨?_, ?_, ?_⟩
  · intro h
    simp only [populateStep]
    rw [if_pos h]
  · intro h hz
    simp only [populateStep]
    rw [if_neg (by rw [h]; exact Bool.false_ne_true)]
    try dsimp only
    rw [if_neg (by rw [hz]; exact Bool.false_ne_true)]
  · intro h hz hidx
    simp only [populateStep]
    rw [if_neg (by rw [h]; exact Bool.false_ne_true)]
    try dsimp only
    rw [if_pos hz, if_pos hidx]
    try dsimp only
    rw [injectPass_fst]

theorem C6_witness :
    (populateStep none (some ⟨"a.zip".toList, [],
        [⟨"index.ts".toList, "x".toList⟩, ⟨"h.js".toList, "Java".toList⟩]⟩) []).1 =
      Except.ok ((extractZip
        [⟨"index.ts".toList, "x".toList⟩, ⟨"h.js".toList, "Java".toList⟩] []).1.map
          (fun p => if endsL tsExt p.1 then (p.1, inject_missing_bridges p.2) else p)) :=
  (C6_populate_injection none
    ⟨"a.zip".toList, [], [⟨"index.ts".toList, "x".toList⟩, ⟨"h.js".toList, "Java".toList⟩]⟩
    []).2.2 rfl rfl rfl

theorem lookupJ_assocSet (fs : TsConfig) (k : String) (v : Jval) :
    lookupJ (assocSet fs k v) k = some v := by
  induction fs with
  | nil => simp [assocSet, lookupJ]
  | cons p fs ih =>
    rcases p with ⟨k2, v2⟩
    by_cases h : k2 = k
    · simp [assocSet, lookupJ, h]
    · simp [assocSet, lookupJ, h, ih]

/-- C7: when the scaffold wrote no tsconfig the step is skipped without
error; when the file exists it is parsed, and the `strict` flag is
disabled exactly when the `compilerOptions` key is present (the file is
rewritten either way, unchanged when the key is absent); disabling
really sets `strict` to `false` in the rewritten options object. -/
theorem C7_tsconfig_strict (cfg : TsConfig) :
    (tsconfigStep none = (Except.ok (), [])) ∧
    (∀ fields, lookupJ cfg "compilerOptions" = some (Jval.jObj fields) →
      tsconfigStep (some cfg) =
        (Except.ok (), [Event.writeCfgE (assocSet cfg "compilerOptions"
          (Jval.jObj (assocSet fields "strict" (Jval.jBool false))))])) ∧
    (lookupJ cfg "compilerOptions" = none →
      tsconfigStep (some cfg) = (Except.ok (), [Event.writeCfgE cfg])) ∧
    (∀ fields : TsConfig, lookupJ (assocSet fields "strict" (Jval.jBool false)) "strict" =
      some (Jval.jBool false)) := by
  refine ⟨rfl, ?_, ?_, ?_⟩
  · intro fields h
    simp [tsconfigStep, setStrict, h]
  · intro h
    simp [tsconfigStep, setStrict, h]
  · intro fields
    exact lookupJ_assocSet fields "strict" (Jval.jBool false)

theorem C7_witness :
    tsconfigStep (some [("compilerOptions", Jval.jObj [("strict", Jval.jBool true)])]) =
      (Except.ok (), [Event.writeCfgE
        [("compilerOptions", Jval.jObj [("strict", Jval.jBool false)])]]) :=
  (C7_tsconfig_strict [("compilerOptions", Jval.jObj [("strict", Jval.jBool true)])]).2.1
    [("strict", Jval.jBool true)] rfl

theorem basenameL_no_slash (s : List Char) : '/' ∉ basenameL s := by
  unfold basenameL
  intro h
  rw [List.mem_reverse] at h
  have := List.mem_takeWhile_imp h
  simp at this

/-- C9: zip extraction writes exactly the members with a nonempty,
script-like (.ts/.js) base name, each under its base name with all
path components discarded; directory entries (empty base name) and
other extensions are skipped, and every written name is nonempty and
slash-free, so it cannot escape the agent directory. -/
theorem C9_extraction_safety (ms : List ZipMember) (fs : FS) :
    ((extractZip ms fs).2 = zipWriteEvents ms) ∧
    (∀ n c, Event.writeFileE n c ∈ (extractZip ms fs).2 →
      n ≠ [] ∧ '/' ∉ n ∧ (endsL tsExt n = true ∨ endsL jsExt n = true) ∧
      ∃ m ∈ ms, n = basenameL m.filename ∧ c = m.content) := by
  refine ⟨extractZip_events ms fs, ?_⟩
  intro n c hev
  rw [extractZip_events ms fs] at hev
  rcases List.mem_filterMap.mp hev with ⟨m, hm, hf⟩
  by_cases hsplit : (!(basenameL m.filename).isEmpty &&
      (endsL tsExt (basenameL m.filename) || endsL jsExt (basenameL m.filename))) = true
  · rw [if_pos hsplit] at hf
    have hf2 : Event.writeFileE (basenameL m.filename) m.content = Event.writeFileE n c :=
      Option.some.inj hf
    obtain ⟨hn, hc⟩ : basenameL m.filename = n ∧ m.content = c := by
      cases hf2
      exact ⟨rfl, rfl⟩
    subst hn
    subst hc
    simp only [Bool.and_eq_true, Bool.not_eq_true', Bool.or_eq_true] at hsplit
    refine ⟨?_, basenameL_no_slash _, hsplit.2, ⟨m, hm, rfl, rfl⟩⟩
    intro hnil
    rw [hnil] at hsplit
    simp at hsplit
  · rw [if_neg hsplit] at hf
    exact absurd hf (by simp)

theorem C9_witness :
    "x.ts".toList ≠ [] ∧ '/' ∉ "x.ts".toList ∧
      (endsL tsExt "x.ts".toList = true ∨ endsL jsExt "x.ts".toList = true) ∧
      ∃ m ∈ [(⟨"d/x.ts".toList, "t".toList⟩ : ZipMember)],
        "x.ts".toList = basenameL m.filename ∧ "t".toList = m.content :=
  (C9_extraction_safety [⟨"d/x.ts".toList, "t".toList⟩] []).2 "x.ts".toList "t".toList
    (List.mem_cons_self _ _)
